import Mathlib

/-
Verification of the i-SAS Base storage layer (isas_base/data).

Shallow embedding of the storage handler (`data_storage_handler.py`), the
asynchronous export worker (`parallel_exporter.py`) and the tag/field
split-join of the data manager (`data_manager.py`).  Pure fragments of the
Python code become Lean functions; the observable effect of each SQL or
file-system operation is modelled explicitly; code that may raise returns
a `PyOutcome`.
-/

set_option autoImplicit false
set_option linter.unusedSectionVars false

namespace ISAS

/-- Outcome of a Python call: a normal return or a raised exception. -/
inductive PyOutcome (α : Type) where
  | ok (a : α)
  | raised (msg : String)
deriving Repr, DecidableEq

/-! ### Relational `sync` save (`DataStorageHandler._save_postgres_data`, mode `'sync'`)

A relational table with primary-key column `index_name` is modelled as a
list of rows `(key, fields)` where `fields` carries the non-key columns.
The staging table (`CREATE TABLE .. AS SELECT .. WHERE false`, bulk insert,
`DROP TABLE`) is transparent: the observable effect on the target table is
that of the single statement

  `INSERT INTO target (cols) SELECT cols FROM staging
   ON CONFLICT (index_name) DO UPDATE SET c = EXCLUDED.c  -- every non-key c`

(or `DO NOTHING` when the dataset has no non-key column, i.e. when
`update_columns` is empty — `hasFields = false`).  PostgreSQL processes the
staged rows in insertion order and rejects a staged set in which two rows
conflict with the same target row ("cannot affect row a second time"),
which happens exactly when the staged keys are not pairwise distinct;
that rejection is modelled as `none`. -/

variable {K V : Type} [DecidableEq K]

/-- The values of the primary-key column of a table. -/
def tableKeys (t : List (K × V)) : List K := t.map Prod.fst

/-- Effect of one staged row under the upsert statement: a row whose key
already exists has every non-key column overwritten with the staged value
(`DO UPDATE SET`, when the dataset has non-key columns) or is left alone
(`DO NOTHING`, when it does not); a row whose key is absent is inserted. -/
def upsertRow (hasFields : Bool) (t : List (K × V)) (r : K × V) : List (K × V) :=
  if r.1 ∈ tableKeys t then
    if hasFields then t.map (fun p => if p.1 = r.1 then (p.1, r.2) else p) else t
  else t ++ [r]

/-- Observable effect of `_save_postgres_data(table, df, index_name, 'sync')`
on the target table `t`, staging the dataset `d`. -/
def syncPostgres (hasFields : Bool) (t d : List (K × V)) : Option (List (K × V)) :=
  if (tableKeys d).Nodup then some (d.foldl (upsertRow hasFields) t) else none

/-! ### Async export worker (`ParallelExporter.run`)

One state of the worker thread.  `queue` is the FIFO producer/consumer
queue (head = next item handed out by `queue.get`); `forwarded` records, in
order, the items passed to `DataManager.export_dynamic_data`; `exitFlag`
is the external stop signal `self.exit`; `stopped` is set when the loop
runs `break`; `crashed` records that `run()` was terminated by an
exception escaping the loop (only `queue.Empty` is caught). -/

structure WorkerState (α : Type) where
  queue : List α
  forwarded : List α
  exitFlag : Bool
  stopped : Bool
  crashed : Bool
deriving Repr, DecidableEq

/-- One pass through the `while True` body of `ParallelExporter.run`.
`fails x = true` models `export_dynamic_data` raising on item `x`: the
exception is not `queue.Empty`, so it propagates and ends `run()`. -/
def runIter {α : Type} (fails : α → Bool) (s : WorkerState α) : WorkerState α :=
  if s.stopped || s.crashed then s
  else
    match s.queue with
    | x :: rest =>
        if fails x then { s with queue := rest, crashed := true }
        else
          let s' : WorkerState α := { s with queue := rest, forwarded := s.forwarded ++ [x] }
          if s'.exitFlag && s'.queue.isEmpty then { s' with stopped := true } else s'
    | [] => if s.exitFlag then { s with stopped := true } else s

/-- `n` passes through the loop body. -/
def runN {α : Type} (fails : α → Bool) : Nat → WorkerState α → WorkerState α
  | 0, s => s
  | n + 1, s => runN fails n (runIter fails s)

/-- `queue.put` from a producer thread: FIFO enqueue at the tail. -/
def enqueue {α : Type} (x : α) (s : WorkerState α) : WorkerState α :=
  { s with queue := s.queue ++ [x] }

/-- Raising the stop signal (`parallel_exporter.exit = True`). -/
def requestStop {α : Type} (s : WorkerState α) : WorkerState α :=
  { s with exitFlag := true }

/-- A fresh worker with an empty queue. -/
def workerInit {α : Type} : WorkerState α := ⟨[], [], false, false, false⟩

/-! ### Backend and save-mode checks (`_check_data_system`, `_save_table_data`)

`DataStorageHandler._check_data_system` raises `ValueError` for an
unsupported backend name; it is called first by every load/save entry
point, before the name→function dispatch performs any I/O.  The save-mode
checks of `_save_postgres_data` (line 156) and `_save_table_data_to_file`
(line 207) construct `ValueError(f'Invalid mode: {mode}')` **without
`raise`**: the exception object is evaluated and discarded, and execution
falls through to the save with the unsupported mode. -/

/-- `DataStorageHandler._check_data_system`. -/
def check_data_system (data_system : String) (candidates : List String) : PyOutcome Unit :=
  if data_system ∈ candidates then .ok ()
  else .raised ("ValueError: data_system " ++ data_system ++ " must be one of the followings")

/-- The physical action a table save is routed to. -/
inductive SaveAction where
  | noop
  | pgSync
  | pgToSql (ifExists : String)
  | fileWrite (mode : String)
deriving Repr, DecidableEq

/-- Routing of `_save_postgres_data` on its `mode` argument.  The guard
`if mode not in ('sync', 'append'): ValueError(...)` creates the exception
but never raises it, so every mode reaches a save: `'sync'` runs the
staging upsert, anything else runs `df.to_sql(..., if_exists=mode)`. -/
def save_postgres_action (mode : String) : SaveAction :=
  if mode = "sync" then .pgSync else .pgToSql mode

/-- Routing of `_save_table_data_to_file` on its `mode` argument.  The
guard `if mode not in ('replace',): ValueError(...)` creates the exception
but never raises it, so the file is written for every mode. -/
def save_file_action (mode : String) : SaveAction :=
  .fileWrite mode

/-- `_save_table_data`: backend check, empty-dataset no-op, then dispatch. -/
def save_table_data_route (data_system mode : String) (dfEmpty : Bool) : PyOutcome SaveAction :=
  match check_data_system data_system ["postgres", "file"] with
  | .raised m => .raised m
  | .ok _ =>
      if dfEmpty then .ok .noop
      else if data_system = "postgres" then .ok (save_postgres_action mode)
      else .ok (save_file_action mode)

/-- `_load_table_data`: backend check before the dispatch to any I/O. -/
def load_table_data_route (data_system : String) : PyOutcome Unit :=
  check_data_system data_system ["postgres", "file"]

/-- `_load_time_series_data` / `_save_time_series_data`: backend check
before the dispatch to any I/O. -/
def time_series_route (data_system : String) : PyOutcome Unit :=
  check_data_system data_system ["influx", "file", "streaming"]

/-! ### Time-index normalization (`DataStorageHandler._convert_datetime`)

The argument is a pandas `Series` or index.  `pd.to_datetime(s, unit='ns')`
preserves the kind and the timezone-awareness of the values (a `RangeIndex`
of integers becomes a timezone-naive `DatetimeIndex`).  A `DatetimeIndex`
has attribute `tz` (the timezone object, or `None` when naive); a `Series`
does not, but has the `dt` accessor.  The branch for a timezone-aware
index evaluates `s.tz.tz_convert(None)` — an attribute lookup of
`tz_convert` **on the timezone object itself**, which owns no such
attribute, hence an `AttributeError`. -/

/-- A pandas datetime-like value as seen by `_convert_datetime`:
an index or a series, with its timezone (`none` = timezone-naive). -/
inductive DTInput where
  | index (tz : Option String)
  | series (tz : Option String)
deriving Repr, DecidableEq

/-- Attributes owned by a timezone object (`datetime.tzinfo` and its
pandas/pytz subclasses).  `tz_convert` is a method of `DatetimeIndex` and
of `Series.dt`, not of the timezone object. -/
def timezoneHasAttr (attr : String) : Bool :=
  attr ∈ ["utcoffset", "tzname", "dst", "fromutc"]

/-- `DataStorageHandler._convert_datetime`. -/
def convert_datetime (s : DTInput) : PyOutcome DTInput :=
  match s with
  | .index (some _) =>
      if timezoneHasAttr "tz_convert" then .ok (.index none)
      else .raised "AttributeError: timezone object has no attribute tz_convert"
  | .index none => .ok (.index none)
  | .series (some _) => .ok (.series none)
  | .series none => .ok (.series none)

/-! ### Time-range load from file (`_load_time_series_data_from_file`)

A time-series CSV file: line 0 is the header, line `j + 1` holds data row
`j`, whose first column parses (via `_convert_datetime`) to the timestamp
`times[j]`, modelled as an integer (nanoseconds).  When a bound is given,
the code first reads column 0 alone, computes
`skiprows = (np.where(times < first)[0] + 1) ++ (np.where(last <= times)[0] + 1)`
and then re-reads the file with those physical line numbers skipped. -/

/-- A data row of the file: parsed timestamp and the remaining columns. -/
abbrev TSRow : Type := Int × List String

/-- `np.where(p)[0]` over a vector: the indices whose entry satisfies `p`. -/
def whereIdx (p : Int → Bool) : List Int → List Nat
  | [] => []
  | t :: ts => (if p t then [0] else []) ++ (whereIdx p ts).map (· + 1)

/-- The `skiprows` list built by `_load_time_series_data_from_file`:
line numbers (data index + 1) of rows before `first_datetime` plus those
at or after `last_datetime`. -/
def skipRowsFor (a b : Option Int) (times : List Int) : List Nat :=
  (match a with
   | some x => (whereIdx (fun t => decide (t < x)) times).map (· + 1)
   | none => []) ++
  (match b with
   | some y => (whereIdx (fun t => decide (y ≤ t)) times).map (· + 1)
   | none => [])

/-- `pd.read_csv(..., skiprows=skip)` on the data rows: row `j` sits on
physical line `lineNo = j + 1` and is dropped iff `lineNo ∈ skip`. -/
def readSkipping (lineNo : Nat) (skip : List Nat) : List TSRow → List TSRow
  | [] => []
  | r :: rs => (if lineNo ∈ skip then [] else [r]) ++ readSkipping (lineNo + 1) skip rs

/-- `_load_time_series_data_from_file` on an existing file with data rows
`rows`: `skiprows = None` when no bound is given, otherwise the pre-read
row-skip.  (The final `_convert_datetime` of the index is the identity
here: timestamps are already modelled in converted form.) -/
def load_time_series_file (rows : List TSRow) (a b : Option Int) : List TSRow :=
  match a, b with
  | none, none => rows
  | _, _ => readSkipping 1 (skipRowsFor a b (rows.map Prod.fst)) rows

/-- The half-open-range predicate of the specification:
`first_datetime <= t < last_datetime`, each bound optional. -/
def inRangeB (a b : Option Int) (t : Int) : Bool :=
  (match a with | some x => decide (x ≤ t) | none => true) &&
  (match b with | some y => decide (t < y) | none => true)

/-! ### Schema coercion (`_load_table_data` lines 60–66,
`_save_table_data` lines 127–134)

A dataframe is a list of named, dtype-tagged columns plus an optional
index column.  Cells distinguish `NaN` (the float sentinel), `pd.NA`
(the explicit typed null marker) and ordinary values.  The value-level
conversion a cast performs is abstracted into a parameter
`castVal : dtype → value → value`; `astype` additionally records the new
dtype, leaves missing cells missing, and — called with a dtype mapping —
raises a `KeyError` when a key of the mapping is not a column. -/

/-- A cell of a dataframe. -/
inductive PCell where
  | nan
  | pdNA
  | val (s : String)
deriving Repr, DecidableEq

/-- A named column with its dtype. -/
structure PColumn where
  name : String
  dtype : String
  cells : List PCell
deriving Repr, DecidableEq

/-- A dataframe: optional index column plus data columns. -/
structure PDF where
  indexCol : Option PColumn
  cols : List PColumn
deriving Repr, DecidableEq

/-- A per-table schema declaration: column name → declared dtype.
The whole registry maps table name → declaration. -/
def SchemaCfg : Type := List (String × List (String × String))

/-- `astype` on one cell: missing cells stay missing, a value is converted
by the abstract `castVal`. -/
def castCell (castVal : String → String → String) (ty : String) : PCell → PCell
  | .nan => .nan
  | .pdNA => .pdNA
  | .val s => .val (castVal ty s)

/-- `fillna(pd.NA)` on one cell. -/
def fillnaCell : PCell → PCell
  | .nan => .pdNA
  | c => c

/-- `df.astype(decl)` with a dtype mapping: raises `KeyError` when a key
of the mapping is not among the columns, otherwise re-types and converts
every column that the mapping mentions. -/
def astype (castVal : String → String → String) (decl : List (String × String))
    (cols : List PColumn) : PyOutcome (List PColumn) :=
  if decl.all (fun kv => cols.any (fun c => c.name = kv.1)) then
    .ok (cols.map (fun c =>
      match List.lookup c.name decl with
      | some ty => ⟨c.name, ty, c.cells.map (castCell castVal ty)⟩
      | none => c))
  else .raised "KeyError: only a column name can be used for the key in a dtype mappings argument"

/-- `fillna(pd.NA)` on every column. -/
def fillnaPdNA (cols : List PColumn) : List PColumn :=
  cols.map (fun c => ⟨c.name, c.dtype, c.cells.map fillnaCell⟩)

/-- `df.drop(set(df.columns) - set(declared names), axis=1)`:
keeps exactly the declared columns, in their original order. -/
def dropExtra (declNames : List String) (cols : List PColumn) : List PColumn :=
  cols.filter (fun c => c.name ∈ declNames)

/-- `df.set_index(df.columns[0])`: the first column becomes the index
(`df.columns[0]` on a frame without columns is an `IndexError`). -/
def set_index_first (df : PDF) : PyOutcome PDF :=
  match df.cols with
  | [] => .raised "IndexError: index 0 is out of bounds"
  | c :: rest => .ok ⟨some c, rest⟩

/-- `df.reset_index()` for a frame carrying a named index, as every frame
entering `_save_table_data` does: the index becomes the first column.
(On a default `RangeIndex` pandas would instead insert a synthetic
`index` column; that case is outside the save contract and modelled as
the identity on the columns.) -/
def reset_index (df : PDF) : PDF :=
  match df.indexCol with
  | some c => ⟨none, c :: df.cols⟩
  | none => ⟨none, df.cols⟩

/-- The schema-coercion part of `_load_table_data` (lines 60–66), applied
to the dataframe `df` returned by the backend (index column: none).
An unknown table skips drop/cast/fillna; both paths end in
`set_index(df.columns[0])`. -/
def load_table_coerce (castVal : String → String → String) (cfg : SchemaCfg)
    (tableName : String) (df : PDF) : PyOutcome PDF :=
  match List.lookup tableName cfg with
  | none => set_index_first df
  | some decl =>
      let cols1 := dropExtra (decl.map Prod.fst) df.cols
      match astype castVal decl cols1 with
      | .raised m => .raised m
      | .ok cols2 => set_index_first ⟨df.indexCol, fillnaPdNA cols2⟩

/-- The schema-coercion part of `_save_table_data` (lines 127–134):
remember `df.index.name`, `reset_index`, and for a known table drop the
undeclared columns and cast with the declaration **filtered to the columns
present** (`data_types = {k: v ... if k in df.columns}`). -/
def save_table_coerce (castVal : String → String → String) (cfg : SchemaCfg)
    (tableName : String) (df : PDF) : PyOutcome (PDF × Option String) :=
  let indexName := df.indexCol.map (fun c => c.name)
  let df1 := reset_index df
  match List.lookup tableName cfg with
  | none => .ok (df1, indexName)
  | some decl =>
      let cols1 := dropExtra (decl.map Prod.fst) df1.cols
      let declPresent := decl.filter (fun kv => cols1.any (fun c => c.name = kv.1))
      match astype castVal declPresent cols1 with
      | .raised m => .raised m
      | .ok cols2 => .ok (⟨none, fillnaPdNA cols2⟩, indexName)

/-! ### Tag/field split and rejoin (`DataManager._import_time_series_data`,
`DataManager._export_time_series_data`)

A time-indexed frame in row-major form: column names plus rows
`(timestamp, cells)`.  The import splits the columns with
`df.columns.str.match('|'.join(TAG_KEYS))` — `re.match` is anchored at the
start, so a column is a tag iff its name starts with one of the tag keys —
into `fields = df.loc[:, ~tag_idx]` and `tags = df.loc[:, tag_idx]`.
The export rejoins them with `fields.join(tags, how='left')`: a left join
on the index in which every left row is paired with **every** right row
carrying an equal index value (an unmatched left row keeps `NaN` fillers). -/

/-- A time-indexed frame, row-major. -/
structure TSFrame where
  cols : List String
  rows : List (Int × List PCell)
deriving Repr, DecidableEq

/-- `TimeSeriesData.TAG_KEYS`. -/
def TAG_KEYS : List String := ["batch_id", "service_name", "batch_datetime"]

/-- `df.columns.str.match('|'.join(tagKeys))`: anchored regex match of the
alternation of the (literal) tag keys. -/
def colIsTag (tagKeys : List String) (c : String) : Bool :=
  tagKeys.any (fun k => k.isPrefixOf c)

/-- One row restricted to the columns selected by `p`. -/
def rowSelect (p : String → Bool) (cols : List String) (r : Int × List PCell) :
    Int × List PCell :=
  (r.1, ((cols.zip r.2).filter (fun cv => p cv.1)).map Prod.snd)

/-- `df.loc[:, p]`: the column subset selected by a predicate on the
column name, with the same index. -/
def selectCols (p : String → Bool) (f : TSFrame) : TSFrame :=
  ⟨f.cols.filter p, f.rows.map (rowSelect p f.cols)⟩

/-- `l.join(r, how='left')`: pandas left join on the index. -/
def joinLeft (l r : TSFrame) : TSFrame :=
  ⟨l.cols ++ r.cols,
   l.rows.flatMap (fun lr =>
     let ms := r.rows.filter (fun rr => rr.1 = lr.1)
     if ms.isEmpty then [(lr.1, lr.2 ++ List.replicate r.cols.length PCell.nan)]
     else ms.map (fun rr => (lr.1, lr.2 ++ rr.2)))⟩

/-- The frame with the field columns first and the tag columns last,
values reordered accordingly — the column arrangement produced by
`fields.join(tags)`. -/
def reorderFieldsTags (tagKeys : List String) (f : TSFrame) : TSFrame :=
  ⟨f.cols.filter (fun c => !colIsTag tagKeys c) ++ f.cols.filter (fun c => colIsTag tagKeys c),
   f.rows.map (fun r =>
     (r.1, (rowSelect (fun c => !colIsTag tagKeys c) f.cols r).2 ++
           (rowSelect (fun c => colIsTag tagKeys c) f.cols r).2))⟩

/-- One declared column after coercion, as the specification describes
it: re-typed to its declared dtype, values converted, missing values
replaced by the explicit `pd.NA` marker. -/
def coerceColumn (castVal : String → String → String) (decl : List (String × String))
    (c : PColumn) : PColumn :=
  let ty := (List.lookup c.name decl).getD c.dtype
  ⟨c.name, ty, c.cells.map (fun x => fillnaCell (castCell castVal ty x))⟩

/-- The coercion the specification describes for a declared table:
undeclared columns dropped, declared columns present re-typed and
converted, missing values replaced by `pd.NA`. -/
def coerceCols (castVal : String → String → String) (decl : List (String × String))
    (cols : List PColumn) : List PColumn :=
  (dropExtra (decl.map Prod.fst) cols).map (coerceColumn castVal decl)

/-! ### Streaming save (`_save_time_series_data_streaming`)

`df.index = self._convert_datetime(df.index)` assigns through to the
caller's frame — the mutation is visible after the call — and only then is
the snapshot `pickle.dump(df, f)` written.  The rest of the frame
(columns, values, row count) is not touched. -/

/-- The caller-visible frame handed to the streaming save: its index (as
seen by `_convert_datetime`), its row count and the untouched remainder. -/
structure StreamDF where
  indexSpec : DTInput
  nrows : Nat
  payload : String
deriving Repr, DecidableEq

/-- A file system mapping paths to pickled snapshots; `pickle.dump`
overwrites the file at `path`. -/
def writeSnapshot (fs : List (String × StreamDF)) (path : String) (df : StreamDF) :
    List (String × StreamDF) :=
  (path, df) :: fs

/-- `_save_time_series_data` routed to `'streaming'`: no-op on an empty
frame, otherwise `_save_time_series_data_streaming` mutates the caller's
index in place and then writes the snapshot.  Returns the caller's frame
after the call together with the file system. -/
def save_time_series_data_streaming (df : StreamDF) (fs : List (String × StreamDF))
    (path : String) : PyOutcome (StreamDF × List (String × StreamDF)) :=
  if df.nrows = 0 then .ok (df, fs)
  else
    match convert_datetime df.indexSpec with
    | .raised m => .raised m
    | .ok i =>
        let df' : StreamDF := { df with indexSpec := i }
        .ok (df', writeSnapshot fs path df')

/-! ## Lemmas: relational sync -/

section SyncLemmas

variable {K V : Type} [DecidableEq K]

theorem mem_tableKeys {t : List (K × V)} {p : K × V} (h : p ∈ t) : p.1 ∈ tableKeys t :=
  List.mem_map_of_mem Prod.fst h

theorem fst_upsertFun (r p : K × V) : (if p.1 = r.1 then (p.1, r.2) else p).1 = p.1 := by
  split <;> rfl

theorem fst_of_mem_upsertRow {b : Bool} {t : List (K × V)} {r p : K × V}
    (hp : p ∈ upsertRow b t r) : p ∈ t ∨ p.1 = r.1 := by
  unfold upsertRow at hp
  by_cases hmem : r.1 ∈ tableKeys t
  · rw [if_pos hmem] at hp
    cases b
    · simp only [Bool.false_eq_true, if_false] at hp
      exact Or.inl hp
    · simp only [if_true] at hp
      rcases List.mem_map.mp hp with ⟨q, hq, hqe⟩
      by_cases hqr : q.1 = r.1
      · right; rw [← hqe, if_pos hqr]; exact hqr
      · rw [if_neg hqr] at hqe
        exact Or.inl (hqe ▸ hq)
  · rw [if_neg hmem] at hp
    rcases List.mem_append.mp hp with h | h
    · exact Or.inl h
    · right; rw [List.mem_singleton.mp h]

theorem mem_of_mem_upsertRow_ne {b : Bool} {t : List (K × V)} {r p : K × V}
    (hp : p ∈ upsertRow b t r) (hne : p.1 ≠ r.1) : p ∈ t := by
  unfold upsertRow at hp
  by_cases hmem : r.1 ∈ tableKeys t
  · rw [if_pos hmem] at hp
    cases b
    · simpa using hp
    · simp only [if_true] at hp
      rcases List.mem_map.mp hp with ⟨q, hq, hqe⟩
      by_cases hqr : q.1 = r.1
      · exfalso
        rw [if_pos hqr] at hqe
        exact hne (by rw [← hqe]; exact hqr)
      · rw [if_neg hqr] at hqe
        exact hqe ▸ hq
  · rw [if_neg hmem] at hp
    rcases List.mem_append.mp hp with h | h
    · exact h
    · exact absurd (congrArg Prod.fst (List.mem_singleton.mp h)) hne

theorem mem_upsertRow_of_mem_ne {b : Bool} {t : List (K × V)} {r p : K × V}
    (hp : p ∈ t) (hne : p.1 ≠ r.1) : p ∈ upsertRow b t r := by
  unfold upsertRow
  by_cases hmem : r.1 ∈ tableKeys t
  · rw [if_pos hmem]
    cases b
    · simpa using hp
    · simp only [if_true]
      refine List.mem_map.mpr ⟨p, hp, ?_⟩
      rw [if_neg hne]
  · rw [if_neg hmem]
    exact List.mem_append_left _ hp

theorem val_upsertRow_self {t : List (K × V)} {r p : K × V}
    (hp : p ∈ upsertRow true t r) (heq : p.1 = r.1) : p.2 = r.2 := by
  unfold upsertRow at hp
  by_cases hmem : r.1 ∈ tableKeys t
  · rw [if_pos hmem] at hp
    simp only [if_true] at hp
    rcases List.mem_map.mp hp with ⟨q, hq, hqe⟩
    by_cases hqr : q.1 = r.1
    · rw [if_pos hqr] at hqe
      rw [← hqe]
    · exfalso
      rw [if_neg hqr] at hqe
      exact hqr (by rw [hqe]; exact heq)
  · rw [if_neg hmem] at hp
    rcases List.mem_append.mp hp with h | h
    · exact absurd (heq ▸ mem_tableKeys h) hmem
    · rw [List.mem_singleton.mp h]

theorem tableKeys_upsertRow (b : Bool) (t : List (K × V)) (r : K × V) :
    tableKeys (upsertRow b t r) =
      if r.1 ∈ tableKeys t then tableKeys t else tableKeys t ++ [r.1] := by
  unfold upsertRow
  by_cases hmem : r.1 ∈ tableKeys t
  · rw [if_pos hmem, if_pos hmem]
    cases b
    · simp
    · simp only [if_true, tableKeys, List.map_map]
      exact List.map_congr_left (fun p _ => fst_upsertFun r p)
  · rw [if_neg hmem, if_neg hmem]
    simp [tableKeys]

theorem mem_keys_upsertRow_left {b : Bool} {t : List (K × V)} {r : K × V} {k : K}
    (h : k ∈ tableKeys t) : k ∈ tableKeys (upsertRow b t r) := by
  rw [tableKeys_upsertRow]
  split
  · exact h
  · exact List.mem_append_left _ h

theorem mem_keys_upsertRow_self {b : Bool} {t : List (K × V)} {r : K × V} :
    r.1 ∈ tableKeys (upsertRow b t r) := by
  rw [tableKeys_upsertRow]
  split
  · assumption
  · exact List.mem_append_right _ (List.mem_singleton.mpr rfl)

theorem nodup_keys_upsertRow {b : Bool} {t : List (K × V)} {r : K × V}
    (h : (tableKeys t).Nodup) : (tableKeys (upsertRow b t r)).Nodup := by
  rw [tableKeys_upsertRow]
  split
  · exact h
  · rename_i hnot
    refine List.Nodup.append h (List.nodup_singleton r.1) ?_
    intro k hk hk2
    rw [List.mem_singleton] at hk2
    exact hnot (hk2 ▸ hk)

theorem foldl_mem_keys {b : Bool} {k : K} (d : List (K × V)) :
    ∀ t : List (K × V), k ∈ tableKeys t → k ∈ tableKeys (List.foldl (upsertRow b) t d) := by
  induction d with
  | nil => intro t h; exact h
  | cons r rest ih =>
      intro t h
      rw [List.foldl_cons]
      exact ih _ (mem_keys_upsertRow_left h)

theorem foldl_keys_of_mem {b : Bool} (d : List (K × V)) :
    ∀ t : List (K × V), ∀ r ∈ d, r.1 ∈ tableKeys (List.foldl (upsertRow b) t d) := by
  induction d with
  | nil => intro t r hr; exact absurd hr (List.not_mem_nil r)
  | cons q rest ih =>
      intro t r hr
      rw [List.foldl_cons]
      rcases List.mem_cons.mp hr with h | h
      · subst h
        exact foldl_mem_keys rest _ mem_keys_upsertRow_self
      · exact ih _ r h

theorem foldl_nodup_keys {b : Bool} (d : List (K × V)) :
    ∀ t : List (K × V), (tableKeys t).Nodup →
      (tableKeys (List.foldl (upsertRow b) t d)).Nodup := by
  induction d with
  | nil => intro t h; exact h
  | cons q rest ih =>
      intro t h
      rw [List.foldl_cons]
      exact ih _ (nodup_keys_upsertRow h)

theorem foldl_row_stable {b : Bool} {k : K} (d : List (K × V)) (hk : k ∉ tableKeys d) :
    ∀ (t : List (K × V)) (p : K × V),
      p ∈ List.foldl (upsertRow b) t d → p.1 = k → p ∈ t := by
  induction d with
  | nil => intro t p hp _; exact hp
  | cons q rest ih =>
      intro t p hp hpk
      simp only [tableKeys, List.map_cons, List.mem_cons, not_or] at hk
      rw [List.foldl_cons] at hp
      have hpt : p ∈ upsertRow b t q := ih (by simpa [tableKeys] using hk.2) _ p hp hpk
      exact mem_of_mem_upsertRow_ne hpt (by rw [hpk]; exact fun he => hk.1 he)

theorem foldl_mem_stable {b : Bool} (d : List (K × V)) {p : K × V}
    (hp1 : p.1 ∉ tableKeys d) :
    ∀ t : List (K × V), p ∈ t → p ∈ List.foldl (upsertRow b) t d := by
  induction d with
  | nil => intro t h; exact h
  | cons q rest ih =>
      intro t h
      simp only [tableKeys, List.map_cons, List.mem_cons, not_or] at hp1
      rw [List.foldl_cons]
      exact ih (by simpa [tableKeys] using hp1.2) _ (mem_upsertRow_of_mem_ne h hp1.1)

theorem foldl_keyval {k : K} {v : V} (d : List (K × V))
    (hd : (tableKeys d).Nodup) (hkv : (k, v) ∈ d) :
    ∀ t : List (K × V), ∀ p ∈ List.foldl (upsertRow true) t d, p.1 = k → p.2 = v := by
  induction d with
  | nil => exact absurd hkv (List.not_mem_nil _)
  | cons q rest ih =>
      intro t p hp hpk
      have hd' : q.1 ∉ tableKeys rest ∧ (tableKeys rest).Nodup :=
        List.nodup_cons.mp (by simpa only [tableKeys, List.map_cons] using hd)
      have hd1 := hd'.1
      have hd2 := hd'.2
      rw [List.foldl_cons] at hp
      rcases List.mem_cons.mp hkv with h | h
      · have hq1 : q.1 = k := by rw [← h]
        have hkrest : k ∉ tableKeys rest := hq1 ▸ hd1
        have hpmem : p ∈ upsertRow true t q := foldl_row_stable rest hkrest _ p hp hpk
        have hval : p.2 = q.2 := val_upsertRow_self hpmem (by rw [hpk, hq1])
        rw [hval, ← h]
      · exact ih hd2 h _ p hp hpk

theorem foldl_insert {b : Bool} (d : List (K × V)) (hd : (tableKeys d).Nodup) :
    ∀ t : List (K × V), ∀ r ∈ d, r.1 ∉ tableKeys t →
      r ∈ List.foldl (upsertRow b) t d := by
  induction d with
  | nil => intro t r hr; exact absurd hr (List.not_mem_nil r)
  | cons q rest ih =>
      intro t r hr hrt
      have hd' : q.1 ∉ tableKeys rest ∧ (tableKeys rest).Nodup :=
        List.nodup_cons.mp (by simpa only [tableKeys, List.map_cons] using hd)
      have hd1 := hd'.1
      have hd2 := hd'.2
      rw [List.foldl_cons]
      rcases List.mem_cons.mp hr with h | h
      · subst h
        have hins : upsertRow b t r = t ++ [r] := by
          unfold upsertRow; rw [if_neg hrt]
        rw [hins]
        exact foldl_mem_stable rest hd1 _ (List.mem_append_right _ (List.mem_singleton.mpr rfl))
      · apply ih hd2 _ r h
        rw [tableKeys_upsertRow]
        split
        · exact hrt
        · intro hmem
          rcases List.mem_append.mp hmem with h1 | h1
          · exact hrt h1
          · rw [List.mem_singleton] at h1
            exact hd1 (h1 ▸ mem_tableKeys h)

theorem filter_key_nil {t : List (K × V)} {k : K} (h : k ∉ tableKeys t) :
    t.filter (fun p => decide (p.1 = k)) = [] := by
  induction t with
  | nil => rfl
  | cons q rest ih =>
      simp only [tableKeys, List.map_cons, List.mem_cons, not_or] at h
      rw [List.filter_cons, if_neg (by simpa using fun he => h.1 he.symm)]
      exact ih (by simpa [tableKeys] using h.2)

theorem filter_key_single {t : List (K × V)} {k : K} {v : V}
    (ht : (tableKeys t).Nodup) (hk : k ∈ tableKeys t)
    (hv : ∀ p ∈ t, p.1 = k → p.2 = v) :
    t.filter (fun p => decide (p.1 = k)) = [(k, v)] := by
  induction t with
  | nil => simp [tableKeys] at hk
  | cons q rest ih =>
      have ht' : q.1 ∉ tableKeys rest ∧ (tableKeys rest).Nodup :=
        List.nodup_cons.mp (by simpa only [tableKeys, List.map_cons] using ht)
      have ht1 := ht'.1
      have ht2 := ht'.2
      rw [List.filter_cons]
      by_cases hqk : q.1 = k
      · rw [if_pos (by simpa using hqk)]
        have hq2 : q.2 = v := hv q (List.mem_cons_self q rest) hqk
        rw [filter_key_nil (by rw [← hqk]; exact ht1)]
        have : q = (k, v) := by
          rcases q with ⟨qk, qv⟩
          simp only at hqk hq2
          rw [hqk, hq2]
        rw [this]
      · rw [if_neg (by simpa using hqk)]
        have hk2 : k ∈ tableKeys rest := by
          simp only [tableKeys, List.map_cons, List.mem_cons] at hk
          exact hk.resolve_left (fun he => hqk he.symm)
        exact ih ht2 hk2 (fun p hp => hv p (List.mem_cons_of_mem q hp))

theorem map_id_of_mem {α : Type} {l : List α} {f : α → α} (h : ∀ a ∈ l, f a = a) :
    l.map f = l :=
  (List.map_congr_left (g := id) h).trans (List.map_id l)

theorem upsert_fixed_of_val {t1 : List (K × V)} {r : K × V}
    (hmem : r.1 ∈ tableKeys t1)
    (hval : ∀ p ∈ t1, p.1 = r.1 → p.2 = r.2) : upsertRow true t1 r = t1 := by
  unfold upsertRow
  rw [if_pos hmem]
  simp only [if_true]
  apply map_id_of_mem
  intro p hp
  by_cases hpr : p.1 = r.1
  · rw [if_pos hpr, ← hval p hp hpr]
  · rw [if_neg hpr]

theorem upsertRow_false_of_mem {t : List (K × V)} {r : K × V}
    (hmem : r.1 ∈ tableKeys t) : upsertRow false t r = t := by
  unfold upsertRow
  rw [if_pos hmem]
  simp

theorem foldl_fixed {W : Type} {t1 : W} {g : W → (K × V) → W} (d : List (K × V))
    (h : ∀ r ∈ d, g t1 r = t1) : List.foldl g t1 d = t1 := by
  induction d with
  | nil => rfl
  | cons q rest ih =>
      rw [List.foldl_cons, h q (List.mem_cons_self q rest)]
      exact ih (fun r hr => h r (List.mem_cons_of_mem q hr))

end SyncLemmas

/-! ## Lemmas: export worker -/

section WorkerLemmas

variable {A : Type}

theorem runIter_stopped (f : A → Bool) {s : WorkerState A} (h : s.stopped = true) :
    runIter f s = s := by
  unfold runIter
  rw [h]
  simp

theorem runIter_crashed (f : A → Bool) {s : WorkerState A} (h : s.crashed = true) :
    runIter f s = s := by
  unfold runIter
  rw [h]
  simp

theorem runN_crashed (f : A → Bool) {s : WorkerState A} (h : s.crashed = true) :
    ∀ n, runN f n s = s := by
  intro n
  induction n with
  | zero => rfl
  | succ m ih =>
      show runN f m (runIter f s) = s
      rw [runIter_crashed f h]
      exact ih

theorem foldl_enqueue (items : List A) :
    ∀ s : WorkerState A, items.foldl (fun s x => enqueue x s) s =
      { s with queue := s.queue ++ items } := by
  induction items with
  | nil =>
      intro s
      rcases s with ⟨q, fw, ex, st, cr⟩
      simp
  | cons x rest ih =>
      intro s
      rw [List.foldl_cons, ih]
      rcases s with ⟨q, fw, ex, st, cr⟩
      simp [enqueue]

theorem runN_drain (items : List A) :
    ∀ fwd : List A,
      runN (fun _ => false) (items.length + 1) ⟨items, fwd, true, false, false⟩ =
        ⟨[], fwd ++ items, true, true, false⟩ := by
  induction items with
  | nil =>
      intro fwd
      show runN (fun _ => false) 0
          (runIter (fun _ => false) ⟨[], fwd, true, false, false⟩) = _
      simp [runIter, runN]
  | cons x rest ih =>
      intro fwd
      show runN (fun _ => false) (rest.length + 1) (runIter (fun _ => false) _) = _
      cases rest with
      | nil =>
          have h1 : runIter (fun _ => false) ⟨[x], fwd, true, false, false⟩ =
              ⟨[], fwd ++ [x], true, true, false⟩ := by
            simp [runIter]
          rw [h1]
          show runN (fun _ => false) 0
              (runIter (fun _ => false) ⟨[], fwd ++ [x], true, true, false⟩) = _
          rfl
      | cons y t =>
          have h1 : runIter (fun _ => false) ⟨x :: y :: t, fwd, true, false, false⟩ =
              ⟨y :: t, fwd ++ [x], true, false, false⟩ := by
            simp [runIter]
          rw [h1, ih (fwd ++ [x])]
          simp

end WorkerLemmas

/-! ## Lemmas: file time-series load -/

section FileLoadLemmas

theorem mem_whereIdx {p : Int → Bool} : ∀ (ts : List Int) (n : Nat),
    n ∈ whereIdx p ts ↔ ∃ t, ts[n]? = some t ∧ p t = true := by
  intro ts
  induction ts with
  | nil => intro n; simp [whereIdx]
  | cons t ts ih =>
      intro n
      cases n with
      | zero =>
          by_cases hp : p t
          · simp [whereIdx, hp]
          · simp [whereIdx, hp]
      | succ m =>
          simp only [whereIdx, List.mem_append, List.mem_map]
          constructor
          · intro h
            rcases h with h | ⟨k, hk, he⟩
            · by_cases hp : p t
              · rw [if_pos hp] at h
                simp at h
              · rw [if_neg hp] at h
                simp at h
            · have hkm : k = m := by omega
              rw [List.getElem?_cons_succ]
              exact hkm ▸ (ih k).mp hk
          · intro h
            right
            refine ⟨m, (ih m).mpr ?_, rfl⟩
            rwa [List.getElem?_cons_succ] at h

theorem succ_mem_map_succ {l : List Nat} {j : Nat} :
    (j + 1) ∈ l.map (· + 1) ↔ j ∈ l := by
  constructor
  · intro h
    rcases List.mem_map.mp h with ⟨a, ha, he⟩
    have : a = j := by omega
    exact this ▸ ha
  · exact fun h => List.mem_map.mpr ⟨j, h, rfl⟩

theorem mem_skipRowsFor {a b : Option Int} {times : List Int} {j : Nat} :
    (j + 1) ∈ skipRowsFor a b times ↔
      ∃ t, times[j]? = some t ∧ inRangeB a b t = false := by
  cases a with
  | none =>
      cases b with
      | none => simp [skipRowsFor, inRangeB]
      | some y =>
          simp only [skipRowsFor, List.nil_append, succ_mem_map_succ, mem_whereIdx]
          refine exists_congr fun t => and_congr_right fun _ => ?_
          simp [inRangeB]
  | some x =>
      cases b with
      | none =>
          simp only [skipRowsFor, List.append_nil, succ_mem_map_succ, mem_whereIdx]
          refine exists_congr fun t => and_congr_right fun _ => ?_
          simp [inRangeB]
      | some y =>
          simp only [skipRowsFor, List.mem_append, succ_mem_map_succ, mem_whereIdx]
          constructor
          · rintro (⟨t, ht, hc⟩ | ⟨t, ht, hc⟩) <;>
              · refine ⟨t, ht, ?_⟩
                simp [inRangeB] at hc ⊢
                omega
          · rintro ⟨t, ht, hc⟩
            simp [inRangeB] at hc
            by_cases hxt : x ≤ t
            · exact Or.inr ⟨t, ht, by simpa using hc hxt⟩
            · exact Or.inl ⟨t, ht, by simp; omega⟩

theorem readSkipping_eq_filter (skip : List Nat) (keep : TSRow → Bool) :
    ∀ (rows : List TSRow) (i : Nat),
      (∀ (j : Nat) (t : TSRow), rows[j]? = some t → ((i + j) ∈ skip ↔ keep t = false)) →
      readSkipping i skip rows = rows.filter keep := by
  intro rows
  induction rows with
  | nil => intro i _; rfl
  | cons r rs ih =>
      intro i h
      have h0 : i ∈ skip ↔ keep r = false := by
        have := h 0 r (by simp)
        rwa [Nat.add_zero] at this
      have hrec : readSkipping (i + 1) skip rs = rs.filter keep := by
        apply ih
        intro j t hjt
        have := h (j + 1) t (by rwa [List.getElem?_cons_succ])
        rwa [show i + (j + 1) = i + 1 + j by omega] at this
      show (if i ∈ skip then [] else [r]) ++ readSkipping (i + 1) skip rs = _
      rw [List.filter_cons]
      by_cases hi : i ∈ skip
      · have hkr : keep r = false := h0.mp hi
        rw [if_pos hi, if_neg (by rw [hkr]; simp), hrec]
        rfl
      · have hkr : keep r = true := by
          cases hb : keep r with
          | false => exact absurd (h0.mpr hb) hi
          | true => rfl
        rw [if_neg hi, if_pos (by rw [hkr]), hrec]
        rfl

theorem readSkipping_skipRows (a b : Option Int) (rows : List TSRow) :
    readSkipping 1 (skipRowsFor a b (rows.map Prod.fst)) rows =
      rows.filter (fun r => inRangeB a b r.1) := by
  apply readSkipping_eq_filter
  intro j t hjt
  rw [Nat.add_comm 1 j, mem_skipRowsFor]
  have hmap : (rows.map Prod.fst)[j]? = some t.1 := by
    simp [List.getElem?_map, hjt]
  simp [hmap]

end FileLoadLemmas

/-! ## Lemmas: schema coercion -/

section SchemaLemmas

theorem lookup_some_of_mem_keys {l : List (String × String)} {k : String}
    (h : k ∈ l.map Prod.fst) : ∃ v, List.lookup k l = some v := by
  induction l with
  | nil => simp at h
  | cons hd tl ih =>
      rcases hd with ⟨k0, v0⟩
      by_cases hb : (k == k0) = true
      · exact ⟨v0, by simp [List.lookup, hb]⟩
      · have hb' : (k == k0) = false := by simpa using hb
        simp only [List.map_cons, List.mem_cons] at h
        have hm : k ∈ tl.map Prod.fst := by
          rcases h with he | hm
          · exact absurd (by simp [he] : (k == k0) = true) (by simp [hb'])
          · exact hm
        rcases ih hm with ⟨v, hv⟩
        exact ⟨v, by simp [List.lookup, hb', hv]⟩

theorem lookup_filter_eq {p : String × String → Bool} {l : List (String × String)} {k : String}
    (hk : ∀ kv ∈ l, kv.1 = k → p kv = true) :
    List.lookup k (l.filter p) = List.lookup k l := by
  induction l with
  | nil => rfl
  | cons hd tl ih =>
      rcases hd with ⟨k0, v0⟩
      have ihh := ih (fun kv hm he => hk kv (List.mem_cons_of_mem _ hm) he)
      by_cases hb : (k == k0) = true
      · have hk0 : k0 = k := (eq_of_beq hb).symm
        have hp : p (k0, v0) = true := hk (k0, v0) (List.mem_cons_self _ _) hk0
        rw [List.filter_cons, if_pos hp]
        simp [List.lookup, hb]
      · have hb' : (k == k0) = false := by simpa using hb
        rw [List.filter_cons]
        by_cases hp : p (k0, v0) = true
        · rw [if_pos hp]
          simp [List.lookup, hb', ihh]
        · rw [if_neg hp]
          simp [List.lookup, hb', ihh]

theorem mem_dropExtra_keys {declNames : List String} {cols : List PColumn} {c : PColumn}
    (hc : c ∈ dropExtra declNames cols) : c.name ∈ declNames ∧ c ∈ cols := by
  unfold dropExtra at hc
  have h := List.mem_filter.mp hc
  exact ⟨by simpa using h.2, h.1⟩

theorem all_present_dropExtra {decl : List (String × String)} {cols : List PColumn}
    (h : decl.all (fun kv => cols.any (fun c => c.name = kv.1)) = true) :
    decl.all (fun kv =>
      (dropExtra (decl.map Prod.fst) cols).any (fun c => c.name = kv.1)) = true := by
  rw [List.all_eq_true] at h ⊢
  intro kv hkv
  have h2 := h kv hkv
  rw [List.any_eq_true] at h2 ⊢
  rcases h2 with ⟨c, hc, hname⟩
  refine ⟨c, ?_, hname⟩
  unfold dropExtra
  apply List.mem_filter.mpr
  refine ⟨hc, ?_⟩
  have hname' : c.name = kv.1 := by simpa using hname
  simp only [decide_eq_true_eq]
  exact List.mem_map.mpr ⟨kv, hkv, hname'.symm⟩

theorem astype_ok {cv : String → String → String} {decl : List (String × String)}
    {cols : List PColumn}
    (h : decl.all (fun kv => cols.any (fun c => c.name = kv.1)) = true) :
    astype cv decl cols = .ok (cols.map (fun c =>
      match List.lookup c.name decl with
      | some ty => ⟨c.name, ty, c.cells.map (castCell cv ty)⟩
      | none => c)) := by
  unfold astype
  rw [if_pos h]

theorem fillna_cast_no_nan (cv : String → String → String) (ty : String) (x : PCell) :
    fillnaCell (castCell cv ty x) ≠ PCell.nan := by
  cases x <;> simp [castCell, fillnaCell]

theorem coerceCols_no_nan (cv : String → String → String) (decl : List (String × String))
    (cols : List PColumn) : ∀ c ∈ coerceCols cv decl cols, PCell.nan ∉ c.cells := by
  intro c hc hn
  rcases List.mem_map.mp hc with ⟨c0, _, he⟩
  rw [← he] at hn
  unfold coerceColumn at hn
  simp only at hn
  rcases List.mem_map.mp hn with ⟨x, _, hx⟩
  exact fillna_cast_no_nan cv _ x hx

theorem fillna_astype_eq (cv : String → String → String)
    (decl d2 : List (String × String)) (cols1 : List PColumn)
    (hc : ∀ c ∈ cols1, c.name ∈ decl.map Prod.fst)
    (hl : ∀ c ∈ cols1, List.lookup c.name d2 = List.lookup c.name decl) :
    fillnaPdNA (cols1.map (fun c =>
      match List.lookup c.name d2 with
      | some ty => ⟨c.name, ty, c.cells.map (castCell cv ty)⟩
      | none => c)) = cols1.map (coerceColumn cv decl) := by
  unfold fillnaPdNA
  rw [List.map_map]
  apply List.map_congr_left
  intro c hcm
  rcases lookup_some_of_mem_keys (hc c hcm) with ⟨ty, hty⟩
  have h2 : List.lookup c.name d2 = some ty := by rw [hl c hcm, hty]
  simp only [Function.comp, h2]
  unfold coerceColumn
  simp [hty, List.map_map, Function.comp]

end SchemaLemmas

/-! ## Lemmas: tag/field split and join -/

section TagFieldLemmas

theorem eq_of_keys_nodup {A B : Type} {l : List (A × B)}
    (h : (l.map Prod.fst).Nodup) {p q : A × B}
    (hp : p ∈ l) (hq : q ∈ l) (he : p.1 = q.1) : p = q := by
  induction l with
  | nil => exact absurd hp (List.not_mem_nil p)
  | cons hd tl ih =>
      have h' : hd.1 ∉ tl.map Prod.fst ∧ (tl.map Prod.fst).Nodup :=
        List.nodup_cons.mp (by simpa only [List.map_cons] using h)
      rcases List.mem_cons.mp hp with hp1 | hp1 <;> rcases List.mem_cons.mp hq with hq1 | hq1
      · rw [hp1, hq1]
      · exfalso
        apply h'.1
        have hh : hd.1 = q.1 := by rw [← hp1]; exact he
        rw [hh]
        exact List.mem_map_of_mem Prod.fst hq1
      · exfalso
        apply h'.1
        have hh : hd.1 = p.1 := by rw [← hq1]; exact he.symm
        rw [hh]
        exact List.mem_map_of_mem Prod.fst hp1
      · exact ih h'.2 hp1 hq1

theorem flatMap_eq_map_of_singleton {A B : Type} {l : List A} {g : A → List B} {h : A → B}
    (he : ∀ x ∈ l, g x = [h x]) : l.flatMap g = l.map h := by
  induction l with
  | nil => rfl
  | cons a t ih =>
      rw [List.flatMap_cons, he a (List.mem_cons_self a t), List.map_cons,
        ih (fun x hx => he x (List.mem_cons_of_mem a hx))]
      rfl

end TagFieldLemmas

/-! ## Claim theorems -/

/-- C1: Sync upsert correctness for the relational backend: for every
target table `t` (unique primary keys) and dataset `d` (unique staged
keys), if `t` holds a row `(k, v1)` and `d` a row `(k, v2)`, then after
the sync the target holds exactly one row for `k`, carrying `v2` in its
non-key columns, and every row of `d` whose key is absent from the target
is inserted. -/
theorem sync_upsert_correct {K V : Type} [DecidableEq K] (t d : List (K × V))
    (k : K) (v1 v2 : V)
    (ht : (tableKeys t).Nodup) (hd : (tableKeys d).Nodup)
    (h1 : (k, v1) ∈ t) (h2 : (k, v2) ∈ d) :
    ∃ t', syncPostgres true t d = some t' ∧
      t'.filter (fun p => decide (p.1 = k)) = [(k, v2)] ∧
      (∀ r ∈ d, r.1 ∉ tableKeys t → r ∈ t') := by
  refine ⟨List.foldl (upsertRow true) t d, ?_, ?_, ?_⟩
  · unfold syncPostgres
    rw [if_pos hd]
  · exact filter_key_single (foldl_nodup_keys d t ht)
      (foldl_keys_of_mem d t (k, v2) h2) (foldl_keyval d hd h2 t)
  · exact fun r hr hrt => foldl_insert d hd t r hr hrt

/-- Witness for C1 at a concrete table and dataset. -/
theorem sync_upsert_correct_witness :
    ∃ t', syncPostgres true [(1, 10), (2, 20)] [(1, 11), (3, 30)] = some t' ∧
      t'.filter (fun p => decide (p.1 = 1)) = [(1, 11)] ∧
      (∀ r ∈ [(1, 11), (3, 30)], r.1 ∉ tableKeys [((1 : Nat), (10 : Nat)), (2, 20)] → r ∈ t') :=
  sync_upsert_correct [(1, 10), (2, 20)] [(1, 11), (3, 30)] 1 10 11
    (by decide) (by decide) (by decide) (by decide)

/-- C2: Sync idempotence: a second `sync` with the identical dataset `d`
maps the table produced by the first `sync` to itself (hence in particular
the content for `d`'s keys is unchanged). -/
theorem sync_idempotent {K V : Type} [DecidableEq K] (b : Bool)
    (t d t1 : List (K × V))
    (h : syncPostgres b t d = some t1) : syncPostgres b t1 d = some t1 := by
  unfold syncPostgres at h ⊢
  by_cases hd : (tableKeys d).Nodup
  · rw [if_pos hd] at h ⊢
    injection h with h
    subst h
    congr 1
    apply foldl_fixed
    intro r hr
    cases b with
    | false => exact upsertRow_false_of_mem (foldl_keys_of_mem d t r hr)
    | true =>
        apply upsert_fixed_of_val (foldl_keys_of_mem d t r hr)
        intro p hp hpr
        have hrd : (r.1, r.2) ∈ d := by rwa [Prod.mk.eta]
        exact foldl_keyval d hd hrd t p hp hpr
  · rw [if_neg hd] at h
    exact absurd h (by simp)

/-- Witness for C2 at a concrete table and dataset. -/
theorem sync_idempotent_witness :
    syncPostgres true [(1, 11), (2, 20), (3, 30)] [(1, 11), (3, 30)] =
      some [(1, 11), (2, 20), (3, 30)] :=
  sync_idempotent true [((1 : Nat), (10 : Nat)), (2, 20)] [(1, 11), (3, 30)]
    [(1, 11), (2, 20), (3, 30)] (by decide)

/-- C3: Worker drain and stop: enqueuing the items of `items` in order and
raising the stop signal leads, after enough loop passes, to the state in
which every item has been forwarded exactly once in enqueue order, the
queue is empty and the worker is stopped; the transition to stopped
happens only at a check where the stop signal is raised and the queue is
observed empty; an item still queued after the stop signal is raised is
processed, not dropped. -/
theorem worker_drain_fifo {A : Type} (items : List A) :
    (runN (fun _ => false) (items.length + 1)
        (requestStop (items.foldl (fun s x => enqueue x s) workerInit)) =
      ⟨[], items, true, true, false⟩)
    ∧ (∀ s : WorkerState A, s.stopped = false →
        (runIter (fun _ => false) s).stopped = true →
        s.exitFlag = true ∧ (runIter (fun _ => false) s).queue = [])
    ∧ (∀ (x : A) (rest fwd : List A),
        (runIter (fun _ => false) ⟨x :: rest, fwd, true, false, false⟩).forwarded =
          fwd ++ [x]) := by
  refine ⟨?_, ?_, ?_⟩
  · rw [foldl_enqueue]
    show runN (fun _ => false) (items.length + 1) ⟨[] ++ items, [], true, false, false⟩ = _
    rw [List.nil_append]
    have := runN_drain items []
    rwa [List.nil_append] at this
  · intro s hs h2
    rcases s with ⟨q, fw, ex, st, cr⟩
    simp only at hs
    subst hs
    cases cr with
    | true => simp [runIter] at h2
    | false =>
        cases q with
        | nil =>
            cases ex with
            | false => simp [runIter] at h2
            | true => exact ⟨rfl, by simp [runIter]⟩
        | cons x rest =>
            cases ex with
            | false => simp [runIter] at h2
            | true =>
                cases rest with
                | nil => exact ⟨rfl, by simp [runIter]⟩
                | cons y t => simp [runIter] at h2
  · intro x rest fwd
    cases rest with
    | nil => simp [runIter]
    | cons y t => simp [runIter]

/-- Witness for C3 at a concrete queue. -/
theorem worker_drain_fifo_witness :
    (runN (fun _ => false) 3
        (requestStop (([7, 8] : List Nat).foldl (fun s x => enqueue x s) workerInit)) =
      ⟨[], [7, 8], true, true, false⟩)
    ∧ ((⟨[], [], true, false, false⟩ : WorkerState Nat).exitFlag = true ∧
        (runIter (fun _ => false) (⟨[], [], true, false, false⟩ : WorkerState Nat)).queue = [])
    ∧ (runIter (fun _ => false) (⟨[5], [9], true, false, false⟩ : WorkerState Nat)).forwarded =
        [9] ++ [5] :=
  ⟨(worker_drain_fifo [7, 8]).1,
   (worker_drain_fifo ([7, 8] : List Nat)).2.1 ⟨[], [], true, false, false⟩ rfl (by decide),
   (worker_drain_fifo ([7, 8] : List Nat)).2.2 5 [] [9]⟩

/-- C4 counterexample: with queue `[1, 2]` where exporting item `1`
raises, the worker forwards nothing, crashes out of the loop and never
reports stopped — it does not continue to item `2`, contradicting the
claim that a single item's failure never terminates the drain loop. -/
theorem worker_fault_counterexample :
    (runN (fun x : Nat => decide (x = 1)) 5 ⟨[1, 2], [], true, false, false⟩).forwarded = []
    ∧ (runN (fun x : Nat => decide (x = 1)) 5 ⟨[1, 2], [], true, false, false⟩).crashed = true
    ∧ (runN (fun x : Nat => decide (x = 1)) 5 ⟨[1, 2], [], true, false, false⟩).stopped = false :=
  ⟨rfl, rfl, rfl⟩

/-- C4 (amended): only the empty-queue timeout (`queue.Empty`) is caught;
an item whose export raises any other error terminates `run()` — the item
is consumed but not forwarded, every later item stays unprocessed, and the
worker never reaches the stopped state. -/
theorem worker_fault_terminates {A : Type} (fails : A → Bool) (x : A)
    (rest fwd : List A) (ex : Bool) (hx : fails x = true) :
    runIter fails ⟨x :: rest, fwd, ex, false, false⟩ = ⟨rest, fwd, ex, false, true⟩
    ∧ runN fails 5 ⟨rest, fwd, ex, false, true⟩ = ⟨rest, fwd, ex, false, true⟩ := by
  constructor
  · simp [runIter, hx]
  · exact runN_crashed fails rfl 5

/-- Witness for C4's amended theorem at a concrete failing item. -/
theorem worker_fault_terminates_witness :
    runIter (fun x : Nat => decide (x = 1)) ⟨[1, 2], [], true, false, false⟩ =
      ⟨[2], [], true, false, true⟩
    ∧ runN (fun x : Nat => decide (x = 1)) 5 ⟨[2], [], true, false, true⟩ =
      ⟨[2], [], true, false, true⟩ :=
  worker_fault_terminates (fun x : Nat => decide (x = 1)) 1 [2] [] true (by decide)

/-- C5 (code evaluated at the failing inputs): an unsupported backend
name does raise a descriptive `ValueError` before any I/O, but an
unsupported save mode does not: the guards of `_save_postgres_data` and
`_save_table_data_to_file` build the `ValueError` without raising it, and
the save proceeds with the unsupported mode (`df.to_sql(...,
if_exists='replace')` resp. an unconditional file write). -/
theorem save_mode_check_code_bug :
    check_data_system "bogus" ["postgres", "file"] =
      .raised "ValueError: data_system bogus must be one of the followings"
    ∧ time_series_route "bogus" =
      .raised "ValueError: data_system bogus must be one of the followings"
    ∧ load_table_data_route "sqlite" =
      .raised "ValueError: data_system sqlite must be one of the followings"
    ∧ save_table_data_route "postgres" "replace" false = .ok (.pgToSql "replace")
    ∧ save_table_data_route "file" "append" false = .ok (.fileWrite "append") :=
  ⟨rfl, rfl, rfl, rfl, rfl⟩

/-- C6: Time-range filter equivalence on the file backend: for every
file content and optional bounds, the pre-read row-skip load equals the
unbounded load filtered to the timestamps `t` with
`first_datetime <= t < last_datetime`. -/
theorem load_time_series_range_filter (rows : List TSRow) (a b : Option Int) :
    load_time_series_file rows a b =
      (load_time_series_file rows none none).filter (fun r => inRangeB a b r.1) := by
  cases a with
  | none =>
      cases b with
      | none =>
          show rows = rows.filter _
          symm
          apply List.filter_eq_self.mpr
          intro r _
          simp [inRangeB]
      | some y => exact readSkipping_skipRows none (some y) rows
  | some x =>
      cases b with
      | none => exact readSkipping_skipRows (some x) none rows
      | some y => exact readSkipping_skipRows (some x) (some y) rows

/-- C7 (code evaluated at the failing input): for a timezone-aware index
the branch `s.tz.tz_convert(None)` looks up `tz_convert` on the timezone
object, which owns no such attribute, so `_convert_datetime` raises an
`AttributeError` instead of returning a naive index; the series branch
and the naive branches normalize as the claim states. -/
theorem convert_datetime_code_bug :
    convert_datetime (.index (some "UTC")) =
      .raised "AttributeError: timezone object has no attribute tz_convert"
    ∧ convert_datetime (.series (some "UTC")) = .ok (.series none)
    ∧ convert_datetime (.index none) = .ok (.index none)
    ∧ convert_datetime (.series none) = .ok (.series none) :=
  ⟨rfl, rfl, rfl, rfl⟩

/-- C10: saving a non-empty frame to the streaming backend (when its
index normalizes successfully, i.e. `_convert_datetime` does not hit the
timezone-aware-index fault of C7) mutates the caller's frame in place:
afterwards its index is the normalized form, the snapshot written at
`path` is of the mutated frame, and no other part of the frame (row
count, payload) is modified. -/
theorem streaming_save_mutates_index (df : StreamDF) (fs : List (String × StreamDF))
    (path : String) (i : DTInput)
    (hn : df.nrows ≠ 0) (hc : convert_datetime df.indexSpec = .ok i) :
    ∃ df', save_time_series_data_streaming df fs path = .ok (df', (path, df') :: fs)
      ∧ df'.indexSpec = i ∧ df'.nrows = df.nrows ∧ df'.payload = df.payload := by
  refine ⟨{ df with indexSpec := i }, ?_, rfl, rfl, rfl⟩
  unfold save_time_series_data_streaming
  rw [if_neg hn, hc]
  rfl

/-- Witness for C10 at a concrete frame. -/
theorem streaming_save_mutates_index_witness :
    ∃ df', save_time_series_data_streaming ⟨.index none, 3, "x"⟩ [] "p" =
        .ok (df', ("p", df') :: [])
      ∧ df'.indexSpec = DTInput.index none ∧ df'.nrows = 3 ∧ df'.payload = "x" :=
  streaming_save_mutates_index ⟨.index none, 3, "x"⟩ [] "p" (.index none)
    (by decide) (by decide)

/-- C8 counterexample: on load, a declared table whose dataframe lacks a
declared column (`a` here) raises a `KeyError` from
`df.astype(self.data_structure_cfg[table_name])` — the declaration cast
is applied with the full per-table mapping, so the load neither drops nor
casts nor returns: the claim's known-table behaviour fails for this
input. -/
theorem schema_coerce_counterexample :
    load_table_coerce (fun _ s => s) [("t", [("id", "Int64"), ("a", "Int64")])] "t"
        ⟨none, [⟨"id", "int64", [PCell.val "1"]⟩]⟩ =
      .raised
        "KeyError: only a column name can be used for the key in a dtype mappings argument" :=
  rfl

/-- C8 (amended): for an unknown table, load and save pass the dataset
through unchanged apart from the index convention and never throw on
account of the missing declaration; for a declared table, the save always
succeeds and the load succeeds whenever every declared column is present,
in both cases dropping every undeclared column, casting every declared
column present to its declared dtype, and replacing missing values by the
explicit `pd.NA` marker (no `NaN` survives the coercion). -/
theorem schema_coerce_amended (cv : String → String → String) (cfg : SchemaCfg)
    (tbl : String) (df : PDF) :
    (List.lookup tbl cfg = none →
      load_table_coerce cv cfg tbl df = set_index_first df
      ∧ save_table_coerce cv cfg tbl df =
          .ok (reset_index df, df.indexCol.map (fun c => c.name)))
    ∧ (∀ decl, List.lookup tbl cfg = some decl →
        decl.all (fun kv => df.cols.any (fun c => c.name = kv.1)) = true →
        load_table_coerce cv cfg tbl df =
          set_index_first ⟨df.indexCol, coerceCols cv decl df.cols⟩)
    ∧ (∀ decl, List.lookup tbl cfg = some decl →
        save_table_coerce cv cfg tbl df =
          .ok (⟨none, coerceCols cv decl (reset_index df).cols⟩,
               df.indexCol.map (fun c => c.name)))
    ∧ (∀ decl cols, ∀ c ∈ coerceCols cv decl cols, PCell.nan ∉ c.cells) := by
  refine ⟨?_, ?_, ?_, coerceCols_no_nan cv⟩
  · intro h
    constructor
    · unfold load_table_coerce
      rw [h]
    · unfold save_table_coerce
      rw [h]
  · intro decl hdecl hall
    simp only [load_table_coerce, hdecl, astype_ok (all_present_dropExtra hall)]
    unfold coerceCols
    rw [fillna_astype_eq cv decl decl (dropExtra (decl.map Prod.fst) df.cols)
      (fun c hc => (mem_dropExtra_keys hc).1) (fun c _ => rfl)]
  · intro decl hdecl
    simp only [save_table_coerce, hdecl]
    have hall2 : (decl.filter (fun kv =>
        (dropExtra (decl.map Prod.fst) (reset_index df).cols).any
          (fun c => c.name = kv.1))).all (fun kv =>
        (dropExtra (decl.map Prod.fst) (reset_index df).cols).any
          (fun c => c.name = kv.1)) = true := by
      rw [List.all_eq_true]
      exact fun kv hkv => (List.mem_filter.mp hkv).2
    simp only [astype_ok hall2]
    unfold coerceCols
    rw [fillna_astype_eq cv decl _ (dropExtra (decl.map Prod.fst) (reset_index df).cols)
      (fun c hc => (mem_dropExtra_keys hc).1) ?_]
    intro c hc
    apply lookup_filter_eq
    intro kv hkv he
    rw [List.any_eq_true]
    exact ⟨c, hc, by simp [he]⟩

/-- Witness for C8's amended theorem at a concrete declared table. -/
theorem schema_coerce_amended_witness :
    load_table_coerce (fun _ s => s) [("t", [("id", "Int64"), ("a", "Int64")])] "t"
        ⟨none, [⟨"id", "int64", [PCell.val "1"]⟩, ⟨"a", "float64", [PCell.nan]⟩,
                ⟨"junk", "object", [PCell.val "z"]⟩]⟩ =
      set_index_first ⟨none, coerceCols (fun _ s => s) [("id", "Int64"), ("a", "Int64")]
        [⟨"id", "int64", [PCell.val "1"]⟩, ⟨"a", "float64", [PCell.nan]⟩,
         ⟨"junk", "object", [PCell.val "z"]⟩]⟩ :=
  (schema_coerce_amended (fun _ s => s) [("t", [("id", "Int64"), ("a", "Int64")])] "t"
      ⟨none, [⟨"id", "int64", [PCell.val "1"]⟩, ⟨"a", "float64", [PCell.nan]⟩,
              ⟨"junk", "object", [PCell.val "z"]⟩]⟩).2.1
    [("id", "Int64"), ("a", "Int64")] (by decide) (by decide)

/-- C9 counterexample: a loaded frame whose time index carries a
duplicate timestamp (possible for a file-backend series built by
repeated appends) is not reproduced by split-then-rejoin:
`fields.join(tags, how='left')` pairs every left row with every matching
right row, so two rows at the same timestamp become four. -/
theorem tag_field_counterexample :
    (joinLeft
        (selectCols (fun c => !colIsTag TAG_KEYS c)
          ⟨["batch_id", "x"],
           [(0, [PCell.val "s1", PCell.val "1"]), (0, [PCell.val "s2", PCell.val "2"])]⟩)
        (selectCols (fun c => colIsTag TAG_KEYS c)
          ⟨["batch_id", "x"],
           [(0, [PCell.val "s1", PCell.val "1"]),
            (0, [PCell.val "s2", PCell.val "2"])]⟩)).rows.length = 4
    ∧ (⟨["batch_id", "x"],
        [(0, [PCell.val "s1", PCell.val "1"]),
         (0, [PCell.val "s2", PCell.val "2"])]⟩ : TSFrame).rows.length = 2 := by
  constructor <;> rfl

/-- C9 (amended): when the time index has no duplicate values, splitting
the columns into tags (names matching the tag-key alternation, anchored)
and fields (the rest) and rejoining with a left join on the index
reproduces the original frame up to column reordering — field columns
first, then tag columns, with each row's values rearranged accordingly
and no row gained or lost; the tag part and the field part always carry
exactly the index of the original frame. -/
theorem tag_field_roundtrip_amended (tagKeys : List String) (f : TSFrame)
    (hnd : (f.rows.map Prod.fst).Nodup) :
    joinLeft (selectCols (fun c => !colIsTag tagKeys c) f)
        (selectCols (fun c => colIsTag tagKeys c) f) = reorderFieldsTags tagKeys f
    ∧ (selectCols (fun c => !colIsTag tagKeys c) f).rows.map Prod.fst = f.rows.map Prod.fst
    ∧ (selectCols (fun c => colIsTag tagKeys c) f).rows.map Prod.fst =
        f.rows.map Prod.fst := by
  have hsel : ∀ p : String → Bool,
      (selectCols p f).rows.map Prod.fst = f.rows.map Prod.fst := by
    intro p
    unfold selectCols
    rw [List.map_map]
    rfl
  refine ⟨?_, hsel _, hsel _⟩
  unfold joinLeft reorderFieldsTags selectCols
  congr 1
  rw [List.flatMap_map]
  apply flatMap_eq_map_of_singleton
  intro r hr
  have hnd2 : (tableKeys
      (f.rows.map (rowSelect (fun c => colIsTag tagKeys c) f.cols))).Nodup := by
    rw [tableKeys, List.map_map]
    exact hnd
  have hmem : (rowSelect (fun c => !colIsTag tagKeys c) f.cols r).1 ∈
      tableKeys (f.rows.map (rowSelect (fun c => colIsTag tagKeys c) f.cols)) := by
    rw [tableKeys, List.map_map]
    exact List.mem_map_of_mem _ hr
  have hval : ∀ q ∈ f.rows.map (rowSelect (fun c => colIsTag tagKeys c) f.cols),
      q.1 = (rowSelect (fun c => !colIsTag tagKeys c) f.cols r).1 →
      q.2 = (rowSelect (fun c => colIsTag tagKeys c) f.cols r).2 := by
    intro q hq hq1
    rcases List.mem_map.mp hq with ⟨r0, hr0, he0⟩
    have h01 : r0.1 = r.1 := by rw [← he0] at hq1; exact hq1
    have hrr : r0 = r := eq_of_keys_nodup hnd hr0 hr h01
    rw [← he0, hrr]
  have hfilter := filter_key_single hnd2 hmem hval
  rw [hfilter]
  rfl

/-- Witness for C9's amended theorem at a concrete frame. -/
theorem tag_field_roundtrip_amended_witness :
    joinLeft
        (selectCols (fun c => !colIsTag TAG_KEYS c)
          ⟨["batch_id", "x"],
           [(0, [PCell.val "s1", PCell.val "1"]), (1, [PCell.val "s2", PCell.val "2"])]⟩)
        (selectCols (fun c => colIsTag TAG_KEYS c)
          ⟨["batch_id", "x"],
           [(0, [PCell.val "s1", PCell.val "1"]), (1, [PCell.val "s2", PCell.val "2"])]⟩) =
      reorderFieldsTags TAG_KEYS
        ⟨["batch_id", "x"],
         [(0, [PCell.val "s1", PCell.val "1"]), (1, [PCell.val "s2", PCell.val "2"])]⟩ :=
  (tag_field_roundtrip_amended TAG_KEYS
    ⟨["batch_id", "x"],
     [(0, [PCell.val "s1", PCell.val "1"]), (1, [PCell.val "s2", PCell.val "2"])]⟩
    (by decide)).1

end ISAS
